import Mathlib

/-!
Verification of the BOAD power-spectrum compression notebook
(`Compression_Example.ipynb`).

The source is numeric Python/numpy code.  We embed it shallowly:

* numpy float arrays become functions / `Matrix (Fin m) (Fin n) ℝ`
  (exact-real idealization of float arithmetic; `np.allclose` checks
  become exact equality checks);
* Python exceptions become an explicit `Except PyErr` result
  (`NameError`, `IndexError`, `AssertionError`, `ValueError`);
* the IEEE special values produced by `x ** -0.5` on non-positive `x`
  (`inf` for `x = 0`, `nan` for `x < 0`) are modelled by the three-case
  type `FV`, because the eigenvalue-clamping step of `uncompress_slice`
  branches on comparisons against these values.
-/

namespace BOAD

open Matrix

open scoped Classical

/-- Python exceptions that the embedded code can raise. -/
inductive PyErr where
  | nameError (missing : String)
  | indexError
  | assertionError
  | valueError
  deriving DecidableEq

/-- The value of a numpy float expression in the eigenvalue-clamping step:
a finite real, `+inf`, or `nan`.  (`-inf` never arises there.) -/
inductive FV where
  | fin (x : ℝ)
  | inf
  | nan

/-- Embedding of the numpy scalar `x ** -0.5` (source line
`roots = [x**-0.5 for x in vals]`): for `x > 0` the finite real
`1 / sqrt x`; for `x = 0` numpy returns `inf`; for `x < 0` it returns
`nan`. -/
noncomputable def powNegHalf (x : ℝ) : FV :=
  if 0 < x then .fin (Real.sqrt x)⁻¹ else if x = 0 then .inf else .nan

/-- Embedding of the Python comparison `x > 0` on such a value:
`inf > 0` is true, `nan > 0` is false. -/
def FV.IsPos : FV → Prop
  | .fin x => 0 < x
  | .inf => True
  | .nan => False

noncomputable instance : DecidablePred FV.IsPos := fun v =>
  match v with
  | .fin x => inferInstanceAs (Decidable (0 < x))
  | .inf => .isTrue trivial
  | .nan => .isFalse id

/-- Whether the value is a finite real. -/
def FV.IsFin : FV → Prop
  | .fin _ => True
  | .inf => False
  | .nan => False

/-- The underlying real of a finite value (junk `0` otherwise). -/
def FV.toReal : FV → ℝ
  | .fin x => x
  | .inf => 0
  | .nan => 0

/-- Embedding of multiplication by the positive float constant `1e-15`
(source line `min_pos*1e-15`): `inf * 1e-15 = inf`, `nan * 1e-15 = nan`. -/
noncomputable def FV.mulClamp : FV → FV
  | .fin x => .fin (x * (1 / 10 ^ 15))
  | .inf => .inf
  | .nan => .nan

/-- The float constant `c = 2**-0.5` of `ps2slices`. -/
noncomputable def sqrtHalf : ℝ := (Real.sqrt 2)⁻¹

/-- The running index `i` of the `ps2slices` loops at the pair
`(n1, n2)` with `n2 ≤ n1`: the pairs are visited with `n1` outer and
`n2 = 0..n1` inner, so `i = n1*(n1+1)/2 + n2`. -/
def triIdx (n1 n2 : ℕ) : ℕ := n1 * (n1 + 1) / 2 + n2

/-- Embedding of `ps2slices(ps, NS, L)`.

The source fills an `(L+1, NS, NS)` array: for each pair `(n1, n2)`
with `n2 ≤ n1` (loop counter `i = triIdx n1 n2`) and each `l ≤ L` it
reads `p = ps[(L+1)*i + l]` and stores `p` at `[l][n1][n1]` when
`n1 = n2`, else `p * c` at both `[l][n1][n2]` and `[l][n2][n1]`.

Every access is in range iff the largest index
`(L+1)*(NS*(NS+1)/2 - 1) + L` is `< len ps`, i.e. iff
`(L+1) * (NS*(NS+1)/2) ≤ len ps`; a shorter `ps` raises `IndexError`
(Python list indexing), and trailing elements of a longer `ps` are
never read.  Since each array cell is written exactly once, the filled
array is given directly by the corresponding read. -/
noncomputable def ps2slices (ps : List ℝ) (NS L : ℕ) :
    Except PyErr (Fin (L + 1) → Matrix (Fin NS) (Fin NS) ℝ) :=
  if (L + 1) * (NS * (NS + 1) / 2) ≤ ps.length then
    .ok (fun l => Matrix.of fun n1 n2 =>
      if (n1 : ℕ) = n2 then ps.getD ((L + 1) * triIdx n1 n2 + l) 0
      else if (n2 : ℕ) < n1 then sqrtHalf * ps.getD ((L + 1) * triIdx n1 n2 + l) 0
      else sqrtHalf * ps.getD ((L + 1) * triIdx n2 n1 + l) 0)
  else .error .indexError

/-- The pairs `(n1, n2)` with `n2 ≤ n1 < NS` in the visit order of the
`ps2slices` loops. -/
def pairsList (NS : ℕ) : List (ℕ × ℕ) :=
  (List.range NS).flatMap fun n1 => (List.range (n1 + 1)).map fun n2 => (n1, n2)

/-- Modelled from the spec: the inverse packing (§8 "Packing/unpacking
inverse", not present in the source code): flatten the upper triangle
of the slices back into one vector in the same pair-major order,
undoing the `2^{-1/2}` off-diagonal scaling. -/
noncomputable def repack {NS L : ℕ}
    (S : Fin (L + 1) → Matrix (Fin NS) (Fin NS) ℝ) : List ℝ :=
  (pairsList NS).flatMap fun p =>
    (List.finRange (L + 1)).map fun l =>
      if h : p.1 < NS ∧ p.2 < NS then
        if p.1 = p.2 then S l ⟨p.1, h.1⟩ ⟨p.2, h.2⟩
        else S l ⟨p.1, h.1⟩ ⟨p.2, h.2⟩ / sqrtHalf
      else 0

/-- Row-major flattening of a matrix, as numpy `.flatten()` followed by
`list(...)`. -/
def flattenM {a b : ℕ} (M : Matrix (Fin a) (Fin b) ℝ) : List ℝ :=
  (List.finRange a).flatMap fun i => (List.finRange b).map fun j => M i j

/-- Embedding of the numpy column slice `RK[:, :k]`: the first `k`
columns, clamped to the actual column count (`min k nc`). -/
def npSliceCols {NS nc : ℕ} (RK : Matrix (Fin NS) (Fin nc) ℝ) (k : ℕ) :
    Matrix (Fin NS) (Fin (min k nc)) ℝ :=
  RK.submatrix id (Fin.castLE (min_le_right k nc))

/-- The SOAP parameters consumed by the core: `n_max`, `l_max`, `n_Z`
(the source rounds them from the params dict; we model them as the
resulting naturals). -/
structure Params where
  n_max : ℕ
  l_max : ℕ
  n_Z : ℕ

/-- The function names bound at top level by the source notebook. -/
def notebookGlobals : List String :=
  ["dataset_to_params", "params2quippy_str", "compress_ps", "ps2slices",
   "gen_random_key", "uncompress_slice"]

/-- L2 norm of a list, `np.linalg.norm`. -/
noncomputable def l2norm (xs : List ℝ) : ℝ :=
  Real.sqrt (xs.map fun x => x ^ 2).sum

/-- Body of `compress_ps` after its first statement, with the undefined
name `split_ps2` read as `ps2slices` — the unique slice-splitting
helper the source defines, and the one the notebook driver actually
uses.  For each `l = 0..L` it computes `W.T @ Pl` with
`W = random_key[:, :2*l+1]`, flattens, concatenates, and (when
`norm` is true, the default) divides the result by its L2 norm. -/
noncomputable def compress_ps_fixed (ps : List ℝ) (p : Params) {nc : ℕ}
    (random_key : Matrix (Fin (p.n_max * p.n_Z)) (Fin nc) ℝ) (norm : Bool) :
    Except PyErr (List ℝ) :=
  match ps2slices ps (p.n_max * p.n_Z) p.l_max with
  | .error e => .error e
  | .ok l_slices =>
    let short : List ℝ := (List.finRange (p.l_max + 1)).flatMap
      fun (l : Fin (p.l_max + 1)) =>
        flattenM ((npSliceCols random_key (2 * l.val + 1))ᵀ * l_slices l)
    if norm then .ok (short.map fun x => x / l2norm short) else .ok short

/-- Embedding of `compress_ps(ps, params, random_key, norm=True)`.

Its first statement is `l_slices = split_ps2(ps, N*S, L)`, and
`split_ps2` is bound nowhere in the source (the helper defined is
`ps2slices`), so in Python the call raises
`NameError: name 'split_ps2' is not defined` before anything is
computed.  The guard models the global-name lookup; the then-branch
(unreachable) is the body with the name bound to `ps2slices`. -/
noncomputable def compress_ps (ps : List ℝ) (p : Params) {nc : ℕ}
    (random_key : Matrix (Fin (p.n_max * p.n_Z)) (Fin nc) ℝ) (norm : Bool) :
    Except PyErr (List ℝ) :=
  if "split_ps2" ∈ notebookGlobals then compress_ps_fixed ps p random_key norm
  else .error (.nameError "split_ps2")

/-- The compression of one l-slice as performed by the notebook driver
cell: `np.dot(RK[:, :2*l+1].T, Pl)`. -/
def compress_slice {NS nc : ℕ} (RK : Matrix (Fin NS) (Fin nc) ℝ) (l : ℕ)
    (Pl : Matrix (Fin NS) (Fin NS) ℝ) :
    Matrix (Fin (min (2 * l + 1) nc)) (Fin NS) ℝ :=
  (npSliceCols RK (2 * l + 1))ᵀ * Pl

/-- The driver cell's `n_short`: total length of the flattened
compressed slices, `sum([len(x.flatten()) for x in comp_slices])`. -/
def n_short {NS nc L : ℕ} (RK : Matrix (Fin NS) (Fin nc) ℝ)
    (slices : Fin (L + 1) → Matrix (Fin NS) (Fin NS) ℝ) : ℕ :=
  ((List.finRange (L + 1)).map fun (l : Fin (L + 1)) =>
    (flattenM (compress_slice RK l.val (slices l))).length).sum

/-- The Compressor as the spec states it (§4.3): for each `l` compute
`Wₗᵗ · Pₗ` where `Wₗ` is the first `2l+1` columns of the key;
concatenate and flatten across `l`; no normalization. -/
def compressor_spec {NS nc L : ℕ} (RK : Matrix (Fin NS) (Fin nc) ℝ)
    (slices : Fin (L + 1) → Matrix (Fin NS) (Fin NS) ℝ) : List ℝ :=
  (List.finRange (L + 1)).flatMap fun (l : Fin (L + 1)) =>
    flattenM ((npSliceCols RK (2 * l.val + 1))ᵀ * slices l)

/-- Exact-arithmetic model of `np.linalg.matrix_rank` applied to a list
of row vectors: the dimension of the span of the rows (the rank of the
stacked matrix, cf. `Matrix.rank_eq_finrank_span_row`). -/
noncomputable def rankL {n : ℕ} (T : List (Fin n → ℝ)) : ℕ :=
  Set.finrank ℝ {x | x ∈ T}

/-- One iteration of the `get_IR` loop: append the current row to `T`,
keep it (recording its index and the new rank) if the rank grew,
otherwise drop it again. -/
noncomputable def irStep {m n : ℕ} (A : Matrix (Fin m) (Fin n) ℝ)
    (st : List (Fin n → ℝ) × List (Fin m) × ℕ) (i : Fin m) :
    List (Fin n → ℝ) × List (Fin m) × ℕ :=
  let T' := st.1 ++ [A i]
  if st.2.2 < rankL T' then (T', st.2.1 ++ [i], rankL T') else st

/-- The initial `get_IR` loop state: `T = [], inds = [], cur_rank = 0`. -/
def irInit {m n : ℕ} : List (Fin n → ℝ) × List (Fin m) × ℕ := ([], [], 0)

/-- Embedding of the inner helper `get_IR(A)` of `uncompress_slice`:
greedily scan the rows of `A` in order, retaining a row iff it
increases the running rank; return the retained rows `T` and their
indices `inds`. -/
noncomputable def get_IR {m n : ℕ} (A : Matrix (Fin m) (Fin n) ℝ) :
    List (Fin n → ℝ) × List (Fin m) :=
  let st := (List.finRange m).foldl (irStep A) irInit
  (st.1, st.2.1)

/-- Lower-triangle symmetrization: `np.linalg.eigh` reads only the
lower triangle of its argument (default `UPLO='L'`), i.e. it
diagonalizes this matrix. -/
def lowerSym {r : ℕ} (C : Matrix (Fin r) (Fin r) ℝ) :
    Matrix (Fin r) (Fin r) ℝ :=
  Matrix.of fun i j => if (j : ℕ) ≤ (i : ℕ) then C i j else C j i

theorem lowerSym_isHermitian {r : ℕ} (C : Matrix (Fin r) (Fin r) ℝ) :
    (lowerSym C).IsHermitian := by
  ext i j
  simp only [conjTranspose_apply, lowerSym, Matrix.of_apply, star_trivial]
  by_cases h1 : (i : ℕ) ≤ (j : ℕ)
  · by_cases h2 : (j : ℕ) ≤ (i : ℕ)
    · have hij : i = j := Fin.ext (le_antisymm h1 h2)
      subst hij; simp
    · rw [if_pos h1, if_neg h2]
  · rw [if_neg h1, if_pos (by omega)]

/-- The Python value `min_pos = min([x for x in roots if x > 0])`,
assuming the filtered list is nonempty.  The filtered list holds the
finite roots `1/sqrt(λ)` for the positive eigenvalues `λ` together
with one `inf` per zero eigenvalue; every finite float is below `inf`,
so the minimum is the least finite root when a positive eigenvalue
exists, and `inf` otherwise. -/
noncomputable def minPosRoot {r : ℕ} (vals : Fin r → ℝ) : FV :=
  if h : (Finset.univ.filter fun i => 0 < vals i).Nonempty then
    .fin ((Finset.univ.filter fun i => 0 < vals i).inf' h
      fun i => (Real.sqrt (vals i))⁻¹)
  else .inf

/-- Embedding of the eigenvalue step of `uncompress_slice`:

    roots = [x**-0.5 for x in vals]
    min_pos = min([x for x in roots if x > 0])
    roots = [x if x > 0 else min_pos*1e-15 for x in roots]

`min` of an empty list raises `ValueError`; the comprehension keeps
index correspondence, so the result is indexed like `vals`. -/
noncomputable def clampRoots {r : ℕ} (vals : Fin r → ℝ) :
    Except PyErr (Fin r → FV) :=
  let roots := fun i => powNegHalf (vals i)
  if (Finset.univ.filter fun i => (roots i).IsPos).Nonempty then
    .ok fun i => if (roots i).IsPos then roots i else (minPosRoot vals).mulClamp
  else .error .valueError

/-- The main (nonzero) branch of `uncompress_slice(WtP, l, RK)`, with
the retained rows `T` / indices `inds` of `get_IR(WtP)` and the sliced
key `W` passed explicitly (see `uncompress_slice` below, which is the
function itself; the split is purely organizational).

Notes on the embedding:
* `W = RK[:, :2*l+1]` — modelled under the hypothesis `2*l+1 ≤ nc`
  (true in every use: the session key has `min(NS, 2L+1)` columns and
  the function is called with the matching compressed shapes);
* the zero branch runs `assert np.linalg.matrix_rank(WtP) == 0`
  before returning zeros; `np.allclose` asserts become exact equality
  checks and a failed `assert` is `AssertionError`;
* `vals, Ut = np.linalg.eigh(C_red)` is modelled by Mathlib's
  eigendecomposition of `lowerSym C_red` (`eigh` reads the lower
  triangle; the columns of `Ut` are orthonormal eigenvectors, matching
  `Matrix.IsHermitian.eigenvectorUnitary`).  numpy orders eigenvalues
  ascending while Mathlib's order is unspecified; the reconstructed
  `P = Tᵗ Uᵗ D² U T` is a functional-calculus expression of `C_red`
  and of `T`, hence independent of the chosen ordered
  eigendecomposition, so the model computes the same `P`;
* if a non-finite root (`inf` from a zero eigenvalue, or an `inf`
  clamp floor) survives into `D`, every entry of `P = Xᵀ·X` becomes
  `inf` or `nan` (the contaminated row of `X` enters every inner
  product, and IEEE gives `inf*0 = nan`), so the final
  `np.allclose(W.T @ P, WtP)` against the finite `WtP` is false and
  the function raises `AssertionError`; the model takes that exit
  directly. -/
noncomputable def uncompress_main {NS m : ℕ}
    (WtP : Matrix (Fin m) (Fin NS) ℝ) (W : Matrix (Fin NS) (Fin m) ℝ)
    (T : List (Fin NS → ℝ)) (inds : List (Fin m)) (d : Fin m) :
    Except PyErr (Matrix (Fin NS) (Fin NS) ℝ) :=
  let r := inds.length
  let gI : Fin r → Fin m := fun a => inds.getD a d
  let C : Matrix (Fin m) (Fin m) ℝ := WtP * W
  let Cred : Matrix (Fin r) (Fin r) ℝ := C.submatrix gI gI
  let hB : (lowerSym Cred).IsHermitian := lowerSym_isHermitian Cred
  let vals : Fin r → ℝ := hB.eigenvalues
  let Ut : Matrix (Fin r) (Fin r) ℝ := hB.eigenvectorUnitary
  let U := Utᵀ
  let R := Uᵀ * Matrix.diagonal vals * U
  if R = Cred then
    (clampRoots vals).bind fun croots =>
      if ∀ i, (croots i).IsFin then
        let D := Matrix.diagonal fun i => (croots i).toReal
        let Tmat : Matrix (Fin r) (Fin NS) ℝ := Matrix.of fun a => T.getD a 0
        let X := D * (U * Tmat)
        let P := Xᵀ * X
        if Wᵀ * P = WtP then .ok P else .error .assertionError
      else .error .assertionError
  else .error .assertionError

/-- Embedding of `uncompress_slice(WtP, l, RK)`: slice the key, run
`get_IR`, take the zero branch (with its
`assert np.linalg.matrix_rank(WtP) == 0`) when no row was retained,
and otherwise run the eigendecomposition route `uncompress_main`. -/
noncomputable def uncompress_slice {NS nc : ℕ} (l : ℕ)
    (WtP : Matrix (Fin (2 * l + 1)) (Fin NS) ℝ)
    (RK : Matrix (Fin NS) (Fin nc) ℝ) (hnc : 2 * l + 1 ≤ nc) :
    Except PyErr (Matrix (Fin NS) (Fin NS) ℝ) :=
  let W : Matrix (Fin NS) (Fin (2 * l + 1)) ℝ := RK.submatrix id (Fin.castLE hnc)
  let TI := get_IR WtP
  let inds := TI.2
  if inds.length = 0 then
    if WtP.rank = 0 then .ok 0 else .error .assertionError
  else
    uncompress_main WtP W TI.1 TI.2 ⟨0, Nat.succ_pos _⟩

/-! ### Rank of a list of rows -/

theorem mem_append_set {n : ℕ} (T : List (Fin n → ℝ)) (v : Fin n → ℝ) :
    {x | x ∈ T ++ [v]} = insert v {x | x ∈ T} := by
  ext y
  simp [List.mem_append, or_comm]

theorem rankL_nil {n : ℕ} : rankL ([] : List (Fin n → ℝ)) = 0 := by
  have h : {x | x ∈ ([] : List (Fin n → ℝ))} = (∅ : Set (Fin n → ℝ)) := by
    ext y; simp
  simp [rankL, h, Set.finrank]

theorem range_get_eq_mem_set {n : ℕ} (T : List (Fin n → ℝ)) :
    Set.range (fun k : Fin T.length => T.get k) = {x | x ∈ T} := by
  ext y
  simp [List.mem_iff_get]

theorem rankL_le_length {n : ℕ} (T : List (Fin n → ℝ)) : rankL T ≤ T.length := by
  have h : (Set.range fun k : Fin T.length => T.get k).finrank ℝ ≤
      Fintype.card (Fin T.length) := finrank_range_le_card _
  rw [range_get_eq_mem_set] at h
  simpa [rankL, Set.finrank] using h

theorem rankL_append_mem {n : ℕ} {T : List (Fin n → ℝ)} {v : Fin n → ℝ}
    (h : v ∈ Submodule.span ℝ {x | x ∈ T}) : rankL (T ++ [v]) = rankL T := by
  rw [rankL, rankL, mem_append_set, Set.finrank, Set.finrank,
    Submodule.span_insert_eq_span h]

theorem rankL_append_not_mem {n : ℕ} {T : List (Fin n → ℝ)} {v : Fin n → ℝ}
    (h : v ∉ Submodule.span ℝ {x | x ∈ T}) : rankL T < rankL (T ++ [v]) := by
  rw [rankL, rankL, mem_append_set, Set.finrank, Set.finrank]
  haveI : FiniteDimensional ℝ
      (Submodule.span ℝ (insert v {x | x ∈ T})) :=
    FiniteDimensional.span_of_finite ℝ ((T.finite_toSet).insert v)
  refine Submodule.finrank_lt_finrank_of_lt
    (lt_of_le_of_ne (Submodule.span_mono (Set.subset_insert _ _)) ?_)
  intro hEq
  rw [hEq] at h
  exact h (Submodule.subset_span (Set.mem_insert _ _))

/-! ### The greedy loop invariant of `get_IR` -/

/-- Loop invariant for `get_IR` after processing the row indices in
`done`: `T` is the rows at `inds`; `T` has full rank (its rows are
independent); `T` spans the same row space as the processed rows; and
`cur_rank` is the rank of `T`. -/
def IRInv {m n : ℕ} (A : Matrix (Fin m) (Fin n) ℝ) (done : List (Fin m))
    (st : List (Fin n → ℝ) × List (Fin m) × ℕ) : Prop :=
  st.1 = st.2.1.map (fun i => A i)
  ∧ rankL st.1 = st.1.length
  ∧ Submodule.span ℝ {x | x ∈ st.1} = Submodule.span ℝ (A '' {i | i ∈ done})
  ∧ st.2.2 = rankL st.1

theorem irStep_inv {m n : ℕ} {A : Matrix (Fin m) (Fin n) ℝ} {done : List (Fin m)}
    {st : List (Fin n → ℝ) × List (Fin m) × ℕ} (hinv : IRInv A done st) (i : Fin m) :
    IRInv A (done ++ [i]) (irStep A st i) := by
  obtain ⟨h1, h2, h3, h4⟩ := hinv
  have hdone : {j | j ∈ done ++ [i]} = insert i {j | j ∈ done} := by
    ext y; simp [List.mem_append, or_comm]
  simp only [irStep]
  by_cases hv : A i ∈ Submodule.span ℝ {x | x ∈ st.1}
  · rw [if_neg (by rw [rankL_append_mem hv, h4]; exact lt_irrefl _)]
    refine ⟨h1, h2, ?_, h4⟩
    rw [hdone, Set.image_insert_eq]
    rw [h3] at hv
    rw [Submodule.span_insert_eq_span hv, h3]
  · rw [if_pos (by rw [h4]; exact rankL_append_not_mem hv)]
    refine ⟨?_, ?_, ?_, rfl⟩
    · show st.1 ++ [A i] = (st.2.1 ++ [i]).map (fun j => A j)
      simp [h1]
    · show rankL (st.1 ++ [A i]) = (st.1 ++ [A i]).length
      have hle := rankL_le_length (st.1 ++ [A i])
      have hgt : rankL st.1 < rankL (st.1 ++ [A i]) := rankL_append_not_mem hv
      have hlen : (st.1 ++ [A i]).length = st.1.length + 1 := by simp
      omega
    · show Submodule.span ℝ {x | x ∈ st.1 ++ [A i]} =
        Submodule.span ℝ (A '' {j | j ∈ done ++ [i]})
      rw [hdone, Set.image_insert_eq, mem_append_set,
        Submodule.span_insert, Submodule.span_insert, h3]

theorem foldl_irStep_inv {m n : ℕ} {A : Matrix (Fin m) (Fin n) ℝ} :
    ∀ (todo done : List (Fin m)) (st : List (Fin n → ℝ) × List (Fin m) × ℕ),
      IRInv A done st → IRInv A (done ++ todo) (todo.foldl (irStep A) st) := by
  intro todo
  induction todo with
  | nil => intro done st h; simpa using h
  | cons i t ih =>
    intro done st h
    have := ih (done ++ [i]) (irStep A st i) (irStep_inv h i)
    simpa using this

theorem get_IR_inv {m n : ℕ} (A : Matrix (Fin m) (Fin n) ℝ) :
    IRInv A (List.finRange m) ((List.finRange m).foldl (irStep A) irInit) := by
  have hbase : IRInv A [] (irInit : List (Fin n → ℝ) × List (Fin m) × ℕ) := by
    refine ⟨rfl, by simp [irInit, rankL_nil], ?_, by simp [irInit, rankL_nil]⟩
    have h1 : {x | x ∈ ([] : List (Fin n → ℝ))} = (∅ : Set (Fin n → ℝ)) := by ext y; simp
    have h2 : {i | i ∈ ([] : List (Fin m))} = (∅ : Set (Fin m)) := by ext y; simp
    simp [irInit, h1, h2]
  simpa using foldl_irStep_inv (List.finRange m) [] irInit hbase

theorem get_IR_T_eq {m n : ℕ} (A : Matrix (Fin m) (Fin n) ℝ) :
    (get_IR A).1 = (get_IR A).2.map (fun i => A i) :=
  (get_IR_inv A).1

theorem get_IR_rankL {m n : ℕ} (A : Matrix (Fin m) (Fin n) ℝ) :
    rankL (get_IR A).1 = (get_IR A).1.length :=
  (get_IR_inv A).2.1

theorem get_IR_span {m n : ℕ} (A : Matrix (Fin m) (Fin n) ℝ) :
    Submodule.span ℝ {x | x ∈ (get_IR A).1} = Submodule.span ℝ (Set.range A) := by
  have h := (get_IR_inv A).2.2.1
  have hu : {i : Fin m | i ∈ List.finRange m} = Set.univ := by
    ext i; simp [List.mem_finRange]
  rw [hu, Set.image_univ] at h
  exact h

theorem get_IR_length_eq_rank {m n : ℕ} (A : Matrix (Fin m) (Fin n) ℝ) :
    (get_IR A).2.length = A.rank := by
  have h1 : (get_IR A).1.length = (get_IR A).2.length := by
    rw [get_IR_T_eq]; simp
  have h2 := get_IR_rankL A
  have h3 : rankL (get_IR A).1 = A.rank := by
    rw [rankL, Set.finrank, get_IR_span, ← rank_eq_finrank_span_row]
  omega

theorem get_IR_rows_independent {m n : ℕ} (A : Matrix (Fin m) (Fin n) ℝ) :
    LinearIndependent ℝ (fun k : Fin (get_IR A).1.length => (get_IR A).1.get k) := by
  rw [linearIndependent_iff_card_eq_finrank_span]
  rw [range_get_eq_mem_set]
  have := get_IR_rankL A
  simpa [rankL] using this.symm

theorem matrix_rank_eq_zero_iff {m n : ℕ} (A : Matrix (Fin m) (Fin n) ℝ) :
    A.rank = 0 ↔ A = 0 := by
  constructor
  · intro h
    rw [rank_eq_finrank_span_row] at h
    haveI : FiniteDimensional ℝ (Submodule.span ℝ (Set.range A)) :=
      FiniteDimensional.span_of_finite ℝ (Set.finite_range A)
    rw [Submodule.finrank_eq_zero] at h
    ext i j
    have hmem : A i ∈ Submodule.span ℝ (Set.range A) :=
      Submodule.subset_span (Set.mem_range_self i)
    rw [h] at hmem
    have : A i = 0 := hmem
    simp [congrFun this j]
  · rintro rfl
    exact rank_zero

theorem get_IR_inds_nil_iff {m n : ℕ} (A : Matrix (Fin m) (Fin n) ℝ) :
    (get_IR A).2.length = 0 ↔ A = 0 := by
  rw [get_IR_length_eq_rank, matrix_rank_eq_zero_iff]

/-! ### The eigenvalue-clamping step -/

theorem powNegHalf_pos {x : ℝ} (h : 0 < x) :
    powNegHalf x = .fin (Real.sqrt x)⁻¹ := if_pos h

theorem powNegHalf_zero : powNegHalf 0 = .inf := by
  simp [powNegHalf]

theorem powNegHalf_neg {x : ℝ} (h : x < 0) : powNegHalf x = .nan := by
  rw [powNegHalf, if_neg (by linarith), if_neg (by linarith)]

theorem powNegHalf_isPos_iff {x : ℝ} : (powNegHalf x).IsPos ↔ 0 ≤ x := by
  rcases lt_trichotomy x 0 with h | h | h
  · rw [powNegHalf_neg h]
    simp [FV.IsPos]
    linarith
  · subst h
    rw [powNegHalf_zero]
    simp [FV.IsPos]
  · rw [powNegHalf_pos h]
    simp only [FV.IsPos]
    constructor
    · intro; linarith
    · intro
      exact inv_pos.2 (Real.sqrt_pos.2 h)

theorem clampRoots_error_iff {r : ℕ} (vals : Fin r → ℝ) :
    clampRoots vals = .error .valueError ↔ ∀ i, vals i < 0 := by
  simp only [clampRoots]
  by_cases h : (Finset.univ.filter fun i => (powNegHalf (vals i)).IsPos).Nonempty
  · rw [if_pos h]
    simp only [reduceCtorEq, false_iff]
    obtain ⟨i, hi⟩ := h
    rw [Finset.mem_filter, powNegHalf_isPos_iff] at hi
    intro hall
    exact absurd (hall i) (not_lt.2 hi.2)
  · rw [if_neg h]
    simp only [true_iff]
    intro i
    by_contra hlt
    exact h ⟨i, Finset.mem_filter.2 ⟨Finset.mem_univ i,
      powNegHalf_isPos_iff.2 (not_lt.1 hlt)⟩⟩

theorem clampRoots_error_eq {r : ℕ} (vals : Fin r → ℝ) (e : PyErr)
    (h : clampRoots vals = .error e) : e = .valueError := by
  simp only [clampRoots] at h
  split at h
  · exact absurd h (by simp)
  · cases h
    rfl

theorem clampRoots_all_pos {r : ℕ} {vals : Fin r → ℝ} (hr : 0 < r)
    (h : ∀ i, 0 < vals i) :
    clampRoots vals = .ok fun i => .fin (Real.sqrt (vals i))⁻¹ := by
  have hne : (Finset.univ.filter fun i => (powNegHalf (vals i)).IsPos).Nonempty :=
    ⟨⟨0, hr⟩, Finset.mem_filter.2 ⟨Finset.mem_univ _,
      powNegHalf_isPos_iff.2 (le_of_lt (h _))⟩⟩
  simp only [clampRoots]
  rw [if_pos hne]
  congr 1
  funext i
  rw [if_pos (powNegHalf_isPos_iff.2 (le_of_lt (h i))), powNegHalf_pos (h i)]

theorem clampRoots_ok_cases {r : ℕ} {vals : Fin r → ℝ} {out : Fin r → FV}
    (h : clampRoots vals = .ok out) (i : Fin r) :
    (0 < vals i → out i = .fin (Real.sqrt (vals i))⁻¹)
    ∧ (vals i = 0 → out i = .inf)
    ∧ (vals i < 0 → out i = (minPosRoot vals).mulClamp) := by
  simp only [clampRoots] at h
  split at h
  case isTrue hne =>
    have hout := Except.ok.inj h
    refine ⟨?_, ?_, ?_⟩
    · intro hpos
      rw [← congrFun hout i, if_pos (powNegHalf_isPos_iff.2 (le_of_lt hpos)),
        powNegHalf_pos hpos]
    · intro hz
      rw [← congrFun hout i, if_pos (powNegHalf_isPos_iff.2 (le_of_eq hz.symm)),
        hz, powNegHalf_zero]
    · intro hneg
      rw [← congrFun hout i,
        if_neg (fun hp => absurd (powNegHalf_isPos_iff.1 hp) (not_le.2 hneg))]
  case isFalse => exact absurd h (by simp)

/-! ### Symmetrization and the `eigh` reconstruction check -/

theorem lowerSym_eq_self_of_symm {r : ℕ} {C : Matrix (Fin r) (Fin r) ℝ}
    (h : Cᵀ = C) : lowerSym C = C := by
  ext i j
  simp only [lowerSym, Matrix.of_apply]
  split
  · rfl
  · rw [show C j i = Cᵀ i j from rfl, h]

theorem R_eq_lowerSym {r : ℕ} (C : Matrix (Fin r) (Fin r) ℝ) :
    (((lowerSym_isHermitian C).eigenvectorUnitary : Matrix (Fin r) (Fin r) ℝ)ᵀ)ᵀ *
      Matrix.diagonal (lowerSym_isHermitian C).eigenvalues *
      ((lowerSym_isHermitian C).eigenvectorUnitary : Matrix (Fin r) (Fin r) ℝ)ᵀ
      = lowerSym C := by
  have hS := (lowerSym_isHermitian C).spectral_theorem
  have hstar : star ((lowerSym_isHermitian C).eigenvectorUnitary :
      Matrix (Fin r) (Fin r) ℝ) =
      ((lowerSym_isHermitian C).eigenvectorUnitary : Matrix (Fin r) (Fin r) ℝ)ᵀ := by
    rw [Matrix.star_eq_conjTranspose, conjTranspose_eq_transpose_of_trivial]
  have hof : (RCLike.ofReal ∘ (lowerSym_isHermitian C).eigenvalues : Fin r → ℝ)
      = (lowerSym_isHermitian C).eigenvalues := by
    funext i
    simp [RCLike.ofReal]
  rw [transpose_transpose, ← hstar, ← hof]
  exact hS.symm

/-! ### Decompression of the zero matrix -/

theorem uncompress_slice_zero {NS nc : ℕ} (l : ℕ)
    (RK : Matrix (Fin NS) (Fin nc) ℝ) (hnc : 2 * l + 1 ≤ nc) :
    uncompress_slice l 0 RK hnc = .ok 0 := by
  have h0 : (get_IR (0 : Matrix (Fin (2 * l + 1)) (Fin NS) ℝ)).2.length = 0 :=
    (get_IR_inds_nil_iff _).2 rfl
  simp only [uncompress_slice]
  rw [if_pos h0, if_pos rank_zero]

/-! ### Small concrete evaluations -/

theorem rankL_singleton {n : ℕ} {v : Fin n → ℝ} (hv : v ≠ 0) : rankL [v] = 1 := by
  have hset : {x | x ∈ [v]} = {v} := by ext y; simp
  rw [rankL, hset, Set.finrank]
  exact finrank_span_singleton hv

theorem get_IR_one {n : ℕ} (A : Matrix (Fin 1) (Fin n) ℝ) (h : A 0 ≠ 0) :
    get_IR A = ([A 0], [(0 : Fin 1)]) := by
  have h1 : rankL [A 0] = 1 := rankL_singleton h
  have hfr : List.finRange 1 = [(0 : Fin 1)] := rfl
  simp only [get_IR, hfr, List.foldl_cons, List.foldl_nil]
  simp only [irStep, irInit]
  rw [List.nil_append, if_pos (by rw [h1]; omega)]
  simp

theorem eigenvalues_fin_one {C : Matrix (Fin 1) (Fin 1) ℝ} (h : C.IsHermitian)
    (i : Fin 1) : h.eigenvalues i = C 0 0 := by
  have hd := h.det_eq_prod_eigenvalues
  rw [Matrix.det_fin_one, Fin.prod_univ_one] at hd
  have hi : i = 0 := Subsingleton.elim _ _
  rw [hi]
  simpa [RCLike.ofReal] using hd.symm

theorem transpose_fin_one (C : Matrix (Fin 1) (Fin 1) ℝ) : Cᵀ = C := by
  ext i j
  have hi : i = 0 := Subsingleton.elim _ _
  have hj : j = 0 := Subsingleton.elim _ _
  rw [hi, hj]
  rfl

/-! ### Claims C4, C5, C9, C10 -/

/-- C4 — Zero-preservation: compressing the zero slice gives the zero
compressed slice (`Wₗᵗ · 0 = 0`), and decompressing the zero
compressed slice takes the degenerate branch (`get_IR` retains no row)
and returns the zero matrix. -/
theorem C4_zero_preservation {NS nc : ℕ} (l : ℕ)
    (RK : Matrix (Fin NS) (Fin nc) ℝ) (hnc : 2 * l + 1 ≤ nc) :
    compress_slice RK l (0 : Matrix (Fin NS) (Fin NS) ℝ) = 0
    ∧ (get_IR (0 : Matrix (Fin (2 * l + 1)) (Fin NS) ℝ)).2.length = 0
    ∧ uncompress_slice l 0 RK hnc = .ok 0 :=
  ⟨Matrix.mul_zero _, (get_IR_inds_nil_iff _).2 rfl, uncompress_slice_zero l RK hnc⟩

/-- Witness for C4 at `NS = nc = 1`, `l = 0`, `RK = [[1]]`. -/
theorem C4_zero_preservation_witness :
    compress_slice (Matrix.of ![![(1 : ℝ)]]) 0 (0 : Matrix (Fin 1) (Fin 1) ℝ) = 0
    ∧ (get_IR (0 : Matrix (Fin 1) (Fin 1) ℝ)).2.length = 0
    ∧ uncompress_slice 0 0 (Matrix.of ![![(1 : ℝ)]]) (le_refl 1) = .ok 0 :=
  C4_zero_preservation 0 (Matrix.of ![![(1 : ℝ)]]) (le_refl 1)

/-- C5 — Reconstruction verification: whenever `uncompress_slice`
returns a matrix `P` (rather than raising), the verification equation
`Wᵗ · P = WtP` holds; a reconstruction for which it would fail exits
with `AssertionError` instead of returning. -/
theorem C5_verification_surfaced {NS nc : ℕ} (l : ℕ)
    (WtP : Matrix (Fin (2 * l + 1)) (Fin NS) ℝ)
    (RK : Matrix (Fin NS) (Fin nc) ℝ) (hnc : 2 * l + 1 ≤ nc)
    (P : Matrix (Fin NS) (Fin NS) ℝ)
    (h : uncompress_slice l WtP RK hnc = .ok P) :
    (RK.submatrix id (Fin.castLE hnc))ᵀ * P = WtP := by
  simp only [uncompress_slice] at h
  by_cases h0 : (get_IR WtP).2.length = 0
  · rw [if_pos h0] at h
    have hW : WtP = 0 := (get_IR_inds_nil_iff _).1 h0
    split at h
    · cases h
      rw [hW, Matrix.mul_zero]
    · cases h
  · rw [if_neg h0] at h
    simp only [uncompress_main] at h
    split at h
    · rcases hcr : clampRoots ((lowerSym_isHermitian _).eigenvalues) with e | croots
      · rw [hcr] at h
        cases h
      · rw [hcr] at h
        simp only [Except.bind] at h
        split at h
        · split at h
          · cases h
            assumption
          · cases h
        · cases h
    · cases h

/-- Witness for C5: the zero slice at `NS = nc = 1`, `l = 0`. -/
theorem C5_verification_surfaced_witness :
    ((Matrix.of ![![(1 : ℝ)]]).submatrix id (Fin.castLE (le_refl 1)))ᵀ *
      (0 : Matrix (Fin 1) (Fin 1) ℝ) = 0 :=
  C5_verification_surfaced 0 0 (Matrix.of ![![(1 : ℝ)]]) (le_refl 1) 0
    (uncompress_slice_zero 0 (Matrix.of ![![(1 : ℝ)]]) (le_refl 1))

/-- C9 — `compress_ps` always raises `NameError` before producing any
output: its first step calls `split_ps2`, which is not among the names
the source defines (`notebookGlobals`); the defined helper is
`ps2slices`. -/
theorem C9_name_error (ps : List ℝ) (p : Params) {nc : ℕ}
    (RK : Matrix (Fin (p.n_max * p.n_Z)) (Fin nc) ℝ) (norm : Bool) :
    compress_ps ps p RK norm = .error (.nameError "split_ps2") := by
  rw [compress_ps, if_neg (by decide)]

theorem uncompress_main_neg {NS : ℕ} (WtP : Matrix (Fin 1) (Fin NS) ℝ)
    (W : Matrix (Fin NS) (Fin 1) ℝ) (T : List (Fin NS → ℝ)) (d : Fin 1)
    (hC : (WtP * W) 0 0 < 0) :
    uncompress_main WtP W T [(0 : Fin 1)] d = .error .valueError := by
  simp only [uncompress_main]
  rw [if_pos (by rw [R_eq_lowerSym]
                 exact lowerSym_eq_self_of_symm (transpose_fin_one _))]
  have hvals : ∀ i, (lowerSym_isHermitian
      ((WtP * W).submatrix (fun a : Fin ([(0 : Fin 1)].length) => [(0 : Fin 1)].getD (a : ℕ) d)
        (fun a : Fin ([(0 : Fin 1)].length) => [(0 : Fin 1)].getD (a : ℕ) d))).eigenvalues i < 0 := by
    intro i
    rw [eigenvalues_fin_one]
    simpa [lowerSym, Matrix.submatrix_apply] using hC
  rw [(clampRoots_error_iff _).2 hvals]
  rfl

/-- C10 — Unhandled `ValueError`: when every eigenvalue of the reduced
Gram matrix is negative, every root is `nan`, the `> 0` filter keeps
nothing, and `min([])` raises `ValueError` (first conjunct); the
concrete nonzero input `WtP = [[-1]]`, `RK = [[1]]`, `l = 0` reaches
exactly that exit of `uncompress_slice` (second conjunct) — not
an `AssertionError` (the reconstruction-failure signal). -/
theorem C10_value_error :
    (∀ (r : ℕ) (vals : Fin r → ℝ), (∀ i, vals i < 0) →
      clampRoots vals = .error .valueError)
    ∧ uncompress_slice 0 (Matrix.of ![![(-1 : ℝ)]]) (Matrix.of ![![(1 : ℝ)]])
        (le_refl 1) = .error .valueError := by
  constructor
  · intro r vals h
    exact (clampRoots_error_iff vals).2 h
  · have hA0 : (Matrix.of ![![(-1 : ℝ)]] : Matrix (Fin 1) (Fin 1) ℝ) 0 ≠ 0 := by
      intro hc
      have h0 := congrFun hc 0
      simp [Matrix.of_apply] at h0
    have hIR := get_IR_one _ hA0
    simp only [uncompress_slice]
    rw [hIR]
    rw [if_neg (by simp)]
    refine uncompress_main_neg _ _ _ _ ?_
    simp [Matrix.mul_apply, Fin.sum_univ_one, Matrix.submatrix_apply]

/-- Witness for C10's general conjunct at `vals = [-1]`. -/
theorem C10_value_error_witness :
    clampRoots (![(-1 : ℝ)] : Fin 1 → ℝ) = .error .valueError :=
  C10_value_error.1 1 ![(-1 : ℝ)] (by
    intro i
    fin_cases i
    norm_num)

/-! ### Claim C2: the clamping step on the eigenvalue list `[4, 0]` -/

theorem sqrt_four : Real.sqrt 4 = 2 := by
  rw [show (4 : ℝ) = 2 ^ 2 by norm_num, Real.sqrt_sq (by norm_num : (0 : ℝ) ≤ 2)]

theorem minPosRoot_pair : minPosRoot (![(4 : ℝ), 0]) = FV.fin 2⁻¹ := by
  have hf : (Finset.univ.filter fun i : Fin 2 => 0 < (![(4 : ℝ), 0]) i) = {0} := by
    ext i
    fin_cases i <;> simp
  simp only [minPosRoot, hf]
  rw [dif_pos (Finset.singleton_nonempty 0), Finset.inf'_singleton]
  norm_num [sqrt_four]

theorem clampRoots_pair_eval :
    clampRoots (![(4 : ℝ), 0]) = .ok ![FV.fin 2⁻¹, FV.inf] := by
  have hp0 : powNegHalf (4 : ℝ) = .fin 2⁻¹ := by
    rw [powNegHalf_pos (by norm_num), sqrt_four]
  have hp1 : powNegHalf (0 : ℝ) = .inf := powNegHalf_zero
  simp only [clampRoots]
  rw [if_pos ⟨0, Finset.mem_filter.2 ⟨Finset.mem_univ _,
    by simp only [Matrix.cons_val_zero]; rw [hp0]
       exact (by norm_num : (0 : ℝ) < 2⁻¹)⟩⟩]
  congr 1
  funext i
  fin_cases i <;>
    simp only [Fin.zero_eta, Fin.mk_one, Fin.isValue, Matrix.cons_val_zero,
      Matrix.cons_val_one, Matrix.head_cons]
  · rw [hp0, if_pos (show (FV.fin 2⁻¹).IsPos from by norm_num [FV.IsPos])]
  · rw [hp1, if_pos (show FV.inf.IsPos from trivial)]

/-- C2 counterexample: on the eigenvalue list `[4, 0]` the non-positive
eigenvalue `0` produces the root `0**-0.5 = inf`, which passes the
`x > 0` filter and stays in the output *unclamped*: the output entry is
`inf`, not the value `(min positive root) * 1e-15 = (1/2) * 1e-15` the
claim prescribes for every non-positive eigenvalue. -/
theorem C2_counterexample :
    clampRoots (![(4 : ℝ), 0]) = .ok ![FV.fin 2⁻¹, FV.inf]
    ∧ minPosRoot (![(4 : ℝ), 0]) = FV.fin 2⁻¹
    ∧ (![FV.fin 2⁻¹, FV.inf]) 1 ≠ (FV.fin 2⁻¹).mulClamp :=
  ⟨clampRoots_pair_eval, minPosRoot_pair, by
    simp only [Matrix.cons_val_one, Matrix.head_cons, FV.mulClamp]
    intro h
    cases h⟩

/-- C2 amended — rank-aware inverse square root with clamping of the
*negative* eigenvalues only: in the eigenvalue step, a positive
eigenvalue contributes `1/sqrt(λ)`; a *negative* eigenvalue's entry is
clamped to `(min positive root found) * 1e-15`; but an *exactly-zero*
eigenvalue contributes `0**-0.5 = inf`, which passes the `x > 0` test
and enters the diagonal matrix `D` unclamped. -/
theorem C2_clamping_amended {r : ℕ} {vals : Fin r → ℝ} {out : Fin r → FV}
    (h : clampRoots vals = .ok out) (i : Fin r) :
    (vals i < 0 → out i = (minPosRoot vals).mulClamp)
    ∧ (0 < vals i → out i = .fin (Real.sqrt (vals i))⁻¹)
    ∧ (vals i = 0 → out i = .inf) := by
  obtain ⟨hpos, hzero, hneg⟩ := clampRoots_ok_cases h i
  exact ⟨hneg, hpos, hzero⟩

/-- Witness for C2's amended theorem at the eigenvalue list `[4, 0]`,
index `1` (the zero eigenvalue). -/
theorem C2_clamping_amended_witness : (![FV.fin 2⁻¹, FV.inf]) 1 = FV.inf :=
  (C2_clamping_amended clampRoots_pair_eval 1).2.2 (by norm_num)

/-! ### Claim C7: lengths and the compression ratio -/

theorem flattenM_length {a b : ℕ} (M : Matrix (Fin a) (Fin b) ℝ) :
    (flattenM M).length = a * b := by
  rw [flattenM, List.length_flatMap]
  have h : (List.finRange a).map
      (List.length ∘ fun i => (List.finRange b).map fun j => M i j) =
      List.replicate a b := by
    rw [List.eq_replicate_iff]
    constructor
    · simp
    · intro x hx
      rw [List.mem_map] at hx
      obtain ⟨i, _, hi⟩ := hx
      simp [← hi]
  rw [h, List.sum_replicate, smul_eq_mul]

theorem sum_map_finRange (f : ℕ → ℕ) (n : ℕ) :
    ((List.finRange n).map fun (l : Fin n) => f l.val).sum
      = ∑ i ∈ Finset.range n, f i := by
  induction n generalizing f with
  | zero => simp
  | succ n ih =>
    rw [List.finRange_succ, List.map_cons, List.map_map, List.sum_cons]
    have h : ((List.finRange n).map ((fun l : Fin (n + 1) => f l.val) ∘ Fin.succ)).sum
        = ∑ i ∈ Finset.range n, f (i + 1) := by
      have hmap : ((fun l : Fin (n + 1) => f l.val) ∘ Fin.succ)
          = fun (l : Fin n) => f (l.val + 1) := by
        funext l
        simp [Function.comp, Fin.val_succ]
      rw [hmap]
      exact ih (fun i => f (i + 1))
    rw [h, Finset.sum_range_succ']
    simp [Nat.add_comm]

theorem sum_odd_range (n : ℕ) : ∑ i ∈ Finset.range n, (2 * i + 1) = n ^ 2 := by
  induction n with
  | zero => simp
  | succ n ih =>
    rw [Finset.sum_range_succ, ih]
    ring

theorem n_short_eq {NS nc L : ℕ} (RK : Matrix (Fin NS) (Fin nc) ℝ)
    (slices : Fin (L + 1) → Matrix (Fin NS) (Fin NS) ℝ) :
    n_short RK slices =
      ((List.finRange (L + 1)).map
        fun (l : Fin (L + 1)) => min (2 * l.val + 1) nc * NS).sum := by
  rw [n_short]
  apply congrArg List.sum
  apply List.map_congr_left
  intro l _
  rw [flattenM_length]

/-- C7 counterexample: with `N = S = 1`, `L = 1` the session key from
`gen_random_key` has `min(N·S, 2L+1) = 1` column, so the `l = 1` slice
`RK[:, :3]` is clamped to one column and the total compressed length is
`2`, not `N·S·(L+1)² = 4` as the claim asserts for every `N, L, S`. -/
theorem C7_counterexample :
    n_short (Matrix.of ![![(1 : ℝ)]])
      (fun _ : Fin 2 => (0 : Matrix (Fin 1) (Fin 1) ℝ)) = 2
    ∧ (2 : ℕ) ≠ 1 * 1 * (1 + 1) ^ 2 := by
  constructor
  · rw [n_short_eq]
    decide
  · decide

/-- C7 amended — compression ratio for keys holding all `2L+1` columns
(`2L+1 ≤ nc`, which for the session key `nc = min(N·S, 2L+1)` means
`N·S ≥ 2L+1`): the driver's total compressed length is
`N·S·(L+1)²`; the vector length `ps2slices` consumes is
`½·N·S·(N·S+1)·(L+1)` entries; and for `N·S > 2L+1` the output is
strictly shorter than the input. -/
theorem C7_ratio_amended {NS nc L : ℕ} (RK : Matrix (Fin NS) (Fin nc) ℝ)
    (slices : Fin (L + 1) → Matrix (Fin NS) (Fin NS) ℝ)
    (h : 2 * L + 1 ≤ nc) :
    n_short RK slices = NS * (L + 1) ^ 2
    ∧ (L + 1) * (NS * (NS + 1) / 2) = NS * (NS + 1) * (L + 1) / 2
    ∧ (2 * L + 1 < NS → NS * (L + 1) ^ 2 < NS * (NS + 1) * (L + 1) / 2) := by
  obtain ⟨k, hk⟩ := Nat.even_mul_succ_self NS
  have h2k : NS * (NS + 1) = 2 * k := by omega
  have hdiv : NS * (NS + 1) / 2 = k := by omega
  have hdiv3 : NS * (NS + 1) * (L + 1) / 2 = k * (L + 1) := by
    rw [h2k, mul_assoc, Nat.mul_div_cancel_left _ (by norm_num : 0 < 2)]
  refine ⟨?_, ?_, ?_⟩
  · rw [n_short_eq]
    have hmin : ((List.finRange (L + 1)).map
          fun (l : Fin (L + 1)) => min (2 * l.val + 1) nc * NS).sum
        = ((List.finRange (L + 1)).map
          fun (l : Fin (L + 1)) => (2 * l.val + 1) * NS).sum := by
      congr 1
      apply List.map_congr_left
      intro l _
      have hl : 2 * l.val + 1 ≤ nc := by
        have := l.isLt
        omega
      rw [min_eq_left hl]
    rw [hmin, sum_map_finRange (fun i => (2 * i + 1) * NS), ← Finset.sum_mul,
      sum_odd_range, mul_comm]
  · rw [hdiv, hdiv3, mul_comm]
  · intro hlt
    rw [hdiv3]
    have hNS : 0 < NS := by omega
    have hpos : 0 < NS * (L + 1) := by positivity
    have key : 2 * (NS * (L + 1) ^ 2) < 2 * (k * (L + 1)) := by
      have hexp : 2 * (k * (L + 1)) = NS * (NS + 1) * (L + 1) := by
        rw [h2k]; ring
      rw [hexp]
      nlinarith [hpos, hlt]
    omega

/-- Witness for C7's amended theorem at `NS = 3`, `nc = 3`, `L = 1`
(`2L+1 = 3 ≤ nc`, `2L+1 = 3 ≤ NS` so the strict part does not fire;
use `NS = 4` for the strict inequality instead). -/
theorem C7_ratio_amended_witness :
    n_short (0 : Matrix (Fin 4) (Fin 3) ℝ)
      (fun _ : Fin 2 => (0 : Matrix (Fin 4) (Fin 4) ℝ)) = 4 * (1 + 1) ^ 2
    ∧ (1 + 1) * (4 * (4 + 1) / 2) = 4 * (4 + 1) * (1 + 1) / 2
    ∧ (2 * 1 + 1 < 4 → 4 * (1 + 1) ^ 2 < 4 * (4 + 1) * (1 + 1) / 2) :=
  C7_ratio_amended (0 : Matrix (Fin 4) (Fin 3) ℝ)
    (fun _ : Fin 2 => (0 : Matrix (Fin 4) (Fin 4) ℝ)) (by norm_num)

/-! ### Claim C6: shape handling of `ps2slices` -/

/-- C6 counterexample: `ps2slices` does no length validation — on the
length-2 vector `[1, 2]` with `NS = 1`, `L = 0` (required length
`NS·(NS+1)·(L+1)/2 = 1`) it *succeeds*, silently ignoring the trailing
element, instead of failing with a `ShapeMismatch` error (no such
error exists anywhere in the source). -/
theorem C6_counterexample :
    ([(1 : ℝ), 2].length ≠ 1 * (1 + 1) * (0 + 1) / 2)
    ∧ ps2slices [(1 : ℝ), 2] 1 0 = .ok (fun _ => Matrix.of ![![(1 : ℝ)]]) := by
  constructor
  · decide
  · simp only [ps2slices]
    rw [if_pos (by norm_num)]
    congr 1
    funext l
    ext i j
    fin_cases l
    fin_cases i
    fin_cases j
    simp [triIdx]

/-- C6 amended — `ps2slices` performs no shape validation: any vector
at least as long as `NS·(NS+1)·(L+1)/2` is accepted (trailing elements
ignored) and yields `L+1` symmetric `NS×NS` matrices; a shorter vector
fails with the out-of-range `IndexError` of Python list indexing, not
with a dedicated `ShapeMismatch` error. -/
theorem C6_shape_amended (ps : List ℝ) (NS L : ℕ) :
    ((L + 1) * (NS * (NS + 1) / 2) ≤ ps.length →
      ∃ S, ps2slices ps NS L = .ok S ∧ ∀ l, (S l)ᵀ = S l)
    ∧ (ps.length < (L + 1) * (NS * (NS + 1) / 2) →
      ps2slices ps NS L = .error .indexError) := by
  constructor
  · intro hlen
    refine ⟨_, by rw [ps2slices, if_pos hlen], ?_⟩
    intro l
    ext i j
    simp only [transpose_apply, Matrix.of_apply]
    rcases lt_trichotomy (i : ℕ) (j : ℕ) with hij | hij | hij
    · rw [if_neg (by omega), if_pos hij, if_neg (by omega), if_neg (by omega)]
    · have : i = j := Fin.ext hij
      subst this
      rfl
    · rw [if_neg (by omega), if_neg (by omega), if_neg (by omega), if_pos hij]
  · intro hlen
    rw [ps2slices, if_neg (by omega)]

/-- Witness for C6's amended theorem at `ps = [1]`, `NS = 1`, `L = 0`
(correct length) and at `ps = []`, `NS = 1`, `L = 0` (too short). -/
theorem C6_shape_amended_witness :
    (∃ S, ps2slices [(1 : ℝ)] 1 0 = .ok S ∧ ∀ l, (S l)ᵀ = S l)
    ∧ ps2slices ([] : List ℝ) 1 0 = .error .indexError :=
  ⟨(C6_shape_amended [(1 : ℝ)] 1 0).1 (by norm_num),
   (C6_shape_amended [] 1 0).2 (by norm_num)⟩

/-! ### Claim C3: what the compression step computes -/

theorem compress_ps_fixed_eq (ps : List ℝ) (p : Params) {nc : ℕ}
    (RK : Matrix (Fin (p.n_max * p.n_Z)) (Fin nc) ℝ)
    {S : Fin (p.l_max + 1) → Matrix (Fin (p.n_max * p.n_Z)) (Fin (p.n_max * p.n_Z)) ℝ}
    (h : ps2slices ps (p.n_max * p.n_Z) p.l_max = .ok S) :
    compress_ps_fixed ps p RK false = .ok (compressor_spec RK S)
    ∧ compress_ps_fixed ps p RK true
        = .ok ((compressor_spec RK S).map
            fun x => x / l2norm (compressor_spec RK S)) := by
  constructor
  · rw [compress_ps_fixed, h]
    rfl
  · rw [compress_ps_fixed, h]
    rfl

theorem ps2slices_two_eval :
    ps2slices [(2 : ℝ)] 1 0 = .ok (fun _ => Matrix.of ![![(2 : ℝ)]]) := by
  simp only [ps2slices]
  rw [if_pos (by norm_num)]
  congr 1
  funext l
  ext i j
  fin_cases l
  fin_cases i
  fin_cases j
  simp [triIdx]

theorem compressor_spec_two_eval :
    compressor_spec (Matrix.of ![![(1 : ℝ)]])
      (fun _ : Fin 1 => Matrix.of ![![(2 : ℝ)]]) = [(2 : ℝ)] := by
  simp only [compressor_spec]
  rw [show List.finRange 1 = [(0 : Fin 1)] from rfl]
  simp only [flattenM, npSliceCols, Matrix.mul_apply, Fin.sum_univ_one,
    Matrix.submatrix_apply]
  norm_num
  rfl

theorem l2norm_two : l2norm [(2 : ℝ)] = 2 := by
  have h : ((2 : ℝ) ^ 2 + 0) = 4 := by norm_num
  simp only [l2norm, List.map_cons, List.map_nil, List.sum_cons, List.sum_nil, h]
  exact sqrt_four

theorem compress_ps_fixed_two_eval :
    compress_ps_fixed [(2 : ℝ)] ⟨1, 0, 1⟩ (Matrix.of ![![(1 : ℝ)]]) true
      = .ok [(1 : ℝ)] := by
  calc compress_ps_fixed [(2 : ℝ)] ⟨1, 0, 1⟩ (Matrix.of ![![(1 : ℝ)]]) true
      = .ok ((compressor_spec (Matrix.of ![![(1 : ℝ)]])
            (fun _ : Fin 1 => Matrix.of ![![(2 : ℝ)]])).map
          fun x => x / l2norm (compressor_spec (Matrix.of ![![(1 : ℝ)]])
            (fun _ : Fin 1 => Matrix.of ![![(2 : ℝ)]]))) :=
        (compress_ps_fixed_eq [(2 : ℝ)] ⟨1, 0, 1⟩ (Matrix.of ![![(1 : ℝ)]])
          ps2slices_two_eval).2
    _ = .ok [(1 : ℝ)] := by
        rw [compressor_spec_two_eval, l2norm_two]
        norm_num

/-- C3 counterexample: `compress_ps` as written never computes
`Wₗᵗ·Pₗ` — every call exits with `NameError` (first conjunct); and even
with the undefined `split_ps2` read as `ps2slices`, the *default*
`norm=True` divides the compressed vector by its L2 norm inside the
compression step: on the one-element power spectrum `[2]` with the key
`[[1]]` the result is `[1]`, not the unnormalized `Wₗᵗ·Pₗ`
concatenation `[2]` the claim prescribes. -/
theorem C3_counterexample :
    compress_ps [(2 : ℝ)] ⟨1, 0, 1⟩ (Matrix.of ![![(1 : ℝ)]]) true
      = .error (.nameError "split_ps2")
    ∧ compress_ps_fixed [(2 : ℝ)] ⟨1, 0, 1⟩ (Matrix.of ![![(1 : ℝ)]]) true
      = .ok [(1 : ℝ)]
    ∧ compressor_spec (Matrix.of ![![(1 : ℝ)]])
        (fun _ : Fin 1 => Matrix.of ![![(2 : ℝ)]]) = [(2 : ℝ)]
    ∧ [(1 : ℝ)] ≠ [(2 : ℝ)] := by
  refine ⟨by rw [compress_ps, if_neg (by decide)], compress_ps_fixed_two_eval,
    compressor_spec_two_eval, ?_⟩
  intro h
  have := List.head_eq_of_cons_eq h
  norm_num at this

/-- C3 amended — the compression step: `compress_ps` as written raises
`NameError` on every input; with `split_ps2` read as `ps2slices` (the
notebook's slice splitter), the `norm=false` result is exactly the
concatenation over `l` of the flattened `Wₗᵗ·Pₗ` with
`Wₗ = random_key[:, :2l+1]` (the spec's Compressor, a pure function of
its inputs with no normalization), while the default `norm=true`
result additionally divides that vector by its L2 norm. -/
theorem C3_compressor_amended (ps : List ℝ) (p : Params) {nc : ℕ}
    (RK : Matrix (Fin (p.n_max * p.n_Z)) (Fin nc) ℝ)
    {S : Fin (p.l_max + 1) → Matrix (Fin (p.n_max * p.n_Z)) (Fin (p.n_max * p.n_Z)) ℝ}
    (h : ps2slices ps (p.n_max * p.n_Z) p.l_max = .ok S) :
    (∀ norm, compress_ps ps p RK norm = .error (.nameError "split_ps2"))
    ∧ compress_ps_fixed ps p RK false = .ok (compressor_spec RK S)
    ∧ compress_ps_fixed ps p RK true
        = .ok ((compressor_spec RK S).map
            fun x => x / l2norm (compressor_spec RK S)) :=
  ⟨fun _ => by rw [compress_ps, if_neg (by decide)],
   (compress_ps_fixed_eq ps p RK h).1, (compress_ps_fixed_eq ps p RK h).2⟩

/-- Witness for C3's amended theorem at `ps = [2]`, `N = S = 1`,
`L = 0`, `RK = [[1]]`. -/
theorem C3_compressor_amended_witness :
    (∀ norm, compress_ps [(2 : ℝ)] ⟨1, 0, 1⟩ (Matrix.of ![![(1 : ℝ)]]) norm
      = .error (.nameError "split_ps2"))
    ∧ compress_ps_fixed [(2 : ℝ)] ⟨1, 0, 1⟩ (Matrix.of ![![(1 : ℝ)]]) false
      = .ok (compressor_spec (Matrix.of ![![(1 : ℝ)]])
          (fun _ : Fin 1 => Matrix.of ![![(2 : ℝ)]]))
    ∧ compress_ps_fixed [(2 : ℝ)] ⟨1, 0, 1⟩ (Matrix.of ![![(1 : ℝ)]]) true
      = .ok ((compressor_spec (Matrix.of ![![(1 : ℝ)]])
            (fun _ : Fin 1 => Matrix.of ![![(2 : ℝ)]])).map
          fun x => x / l2norm (compressor_spec (Matrix.of ![![(1 : ℝ)]])
            (fun _ : Fin 1 => Matrix.of ![![(2 : ℝ)]]))) :=
  C3_compressor_amended [(2 : ℝ)] ⟨1, 0, 1⟩ (Matrix.of ![![(1 : ℝ)]])
    ps2slices_two_eval

/-! ### Claim C8: packing/unpacking inverse -/

theorem sqrtHalf_ne_zero : sqrtHalf ≠ 0 :=
  inv_ne_zero (ne_of_gt (Real.sqrt_pos.2 two_pos))

theorem tri_succ (N : ℕ) : (N + 1) * (N + 1 + 1) / 2 = N * (N + 1) / 2 + (N + 1) := by
  obtain ⟨k, hk⟩ := Nat.even_mul_succ_self N
  have h2 : (N + 1) * (N + 1 + 1) = N * (N + 1) + 2 * (N + 1) := by ring
  omega

theorem pairs_map_triIdx (NS : ℕ) :
    (pairsList NS).map (fun p => triIdx p.1 p.2) = List.range (NS * (NS + 1) / 2) := by
  induction NS with
  | zero => rfl
  | succ N ih =>
    have hsplit : pairsList (N + 1)
        = pairsList N ++ ((List.range (N + 1)).map fun n2 => (N, n2)) := by
      rw [pairsList, List.range_succ, List.flatMap_append]
      congr 1
      simp [List.range_succ]
    rw [hsplit, List.map_append, ih, List.map_map]
    have h2 : ((fun p : ℕ × ℕ => triIdx p.1 p.2) ∘ fun n2 => (N, n2))
        = fun n2 => N * (N + 1) / 2 + n2 := by
      funext n2
      rfl
    rw [h2, tri_succ]
    conv_rhs => rw [List.range_add]

theorem flatMap_chunks_getD (K : ℕ) :
    ∀ (nP : ℕ) (v : List ℝ), v.length = nP * K →
      (List.range nP).flatMap
        (fun i => (List.finRange K).map fun (l : Fin K) => v.getD (K * i + l.val) 0)
      = v := by
  intro nP
  induction nP with
  | zero =>
    intro v hv
    simp only [Nat.zero_mul] at hv
    simp [List.length_eq_zero.mp hv]
  | succ n ih =>
    intro v hv
    rw [List.range_succ, List.flatMap_append]
    have hlen : (v.take (n * K)).length = n * K := by
      rw [List.length_take]
      have : n * K ≤ v.length := by
        rw [hv]
        exact Nat.mul_le_mul_right K (Nat.le_succ n)
      omega
    have hfront := ih (v.take (n * K)) hlen
    have hcong : ∀ i ∈ List.range n,
        ((List.finRange K).map fun (l : Fin K) => (v.take (n * K)).getD (K * i + l.val) 0)
        = ((List.finRange K).map fun (l : Fin K) => v.getD (K * i + l.val) 0) := by
      intro i hi
      apply List.map_congr_left
      intro l _
      have hi' : i < n := List.mem_range.mp hi
      have hl := l.isLt
      have hidx : K * i + l.val < n * K := by
        have hms : K * (i + 1) = K * i + K := by ring
        have h2 : K * (i + 1) ≤ K * n := Nat.mul_le_mul_left K hi'
        have h3 : K * n = n * K := Nat.mul_comm K n
        omega
      rw [List.getD_eq_getElem?_getD, List.getD_eq_getElem?_getD,
        List.getElem?_take_of_lt hidx]
    have hmain : (List.range n).flatMap
        (fun i => (List.finRange K).map fun (l : Fin K) => v.getD (K * i + l.val) 0)
        = v.take (n * K) := by
      rw [← List.flatMap_congr hcong]
      exact hfront
    have hdrop : ([n].flatMap
        (fun i => (List.finRange K).map fun (l : Fin K) => v.getD (K * i + l.val) 0))
        = v.drop (n * K) := by
      have hsing : ([n].flatMap
          (fun i => (List.finRange K).map fun (l : Fin K) => v.getD (K * i + l.val) 0))
          = (List.finRange K).map fun (l : Fin K) => v.getD (K * n + l.val) 0 := by
        simp
      rw [hsing]
      apply List.ext_getElem
      · rw [List.length_map, List.length_finRange, List.length_drop, hv]
        have hsm : (n + 1) * K = n * K + K := by ring
        omega
      · intro j h1 h2
        have hj : j < K := by
          rw [List.length_map, List.length_finRange] at h1
          exact h1
        simp only [List.getElem_map, List.getElem_drop, List.getElem_finRange,
          Fin.coe_cast]
        have hsm : (n + 1) * K = n * K + K := by ring
        have hrange : n * K + j < v.length := by omega
        rw [show K * n + j = n * K + j from by ring,
          List.getD_eq_getElem _ _ hrange]
    rw [hmain, hdrop, List.take_append_drop]

/-- C8 — packing/unpacking inverse: decomposing a vector of the
correct length into l-slices with `ps2slices` (diagonal entries stored
directly, off-diagonal entries scaled by `2^{-1/2}` into both
symmetric positions) and re-packing the upper triangle with the
inverse off-diagonal scaling reproduces the vector exactly. -/
theorem C8_pack_unpack (ps : List ℝ) (NS L : ℕ)
    (hlen : ps.length = (L + 1) * (NS * (NS + 1) / 2))
    {S : Fin (L + 1) → Matrix (Fin NS) (Fin NS) ℝ}
    (hS : ps2slices ps NS L = .ok S) :
    repack S = ps := by
  rw [ps2slices, if_pos (le_of_eq hlen.symm)] at hS
  have hSf := (Except.ok.inj hS).symm
  have hmem : ∀ p ∈ pairsList NS, p.2 ≤ p.1 ∧ p.1 < NS := by
    intro p hp
    rw [pairsList, List.mem_flatMap] at hp
    obtain ⟨n1, hn1, hp2⟩ := hp
    rw [List.mem_map] at hp2
    obtain ⟨n2, hn2, rfl⟩ := hp2
    have h1 := List.mem_range.mp hn1
    have h2 := List.mem_range.mp hn2
    exact ⟨by omega, h1⟩
  rw [repack]
  have hblock : ∀ p ∈ pairsList NS,
      ((List.finRange (L + 1)).map fun l =>
        if h : p.1 < NS ∧ p.2 < NS then
          (if p.1 = p.2 then S l ⟨p.1, h.1⟩ ⟨p.2, h.2⟩
           else S l ⟨p.1, h.1⟩ ⟨p.2, h.2⟩ / sqrtHalf)
        else 0)
      = ((List.finRange (L + 1)).map fun (l : Fin (L + 1)) =>
          ps.getD ((L + 1) * triIdx p.1 p.2 + l.val) 0) := by
    intro p hp
    obtain ⟨h21, h1⟩ := hmem p hp
    apply List.map_congr_left
    intro l _
    rw [dif_pos ⟨h1, lt_of_le_of_lt h21 h1⟩]
    by_cases heq : p.1 = p.2
    · rw [if_pos heq]
      rw [hSf]
      simp only [Matrix.of_apply]
      rw [if_pos heq]
    · rw [if_neg heq]
      rw [hSf]
      simp only [Matrix.of_apply]
      rw [if_neg heq, if_pos (show p.2 < p.1 by omega),
        mul_div_cancel_left₀ _ sqrtHalf_ne_zero]
  rw [List.flatMap_congr hblock]
  have hrw : (pairsList NS).flatMap
      (fun p => (List.finRange (L + 1)).map fun (l : Fin (L + 1)) =>
        ps.getD ((L + 1) * triIdx p.1 p.2 + l.val) 0)
      = ((pairsList NS).map fun p => triIdx p.1 p.2).flatMap
        (fun i => (List.finRange (L + 1)).map fun (l : Fin (L + 1)) =>
          ps.getD ((L + 1) * i + l.val) 0) := by
    rw [List.flatMap_map]
  rw [hrw, pairs_map_triIdx]
  exact flatMap_chunks_getD (L + 1) (NS * (NS + 1) / 2) ps (by rw [hlen]; ring)

theorem ps2slices_one_eval :
    ps2slices [(1 : ℝ)] 1 0 = .ok (fun _ => Matrix.of ![![(1 : ℝ)]]) := by
  simp only [ps2slices]
  rw [if_pos (by norm_num)]
  congr 1
  funext l
  ext i j
  fin_cases l
  fin_cases i
  fin_cases j
  simp [triIdx]

/-- Witness for C8 at `ps = [1]`, `NS = 1`, `L = 0`. -/
theorem C8_pack_unpack_witness :
    repack (fun _ : Fin 1 => Matrix.of ![![(1 : ℝ)]]) = [(1 : ℝ)] :=
  C8_pack_unpack [(1 : ℝ)] 1 0 (by norm_num) ps2slices_one_eval

/-! ### Claim C1: the core projection identity

For a PSD matrix `P` of rank `r` and selected key columns `Wsel` such
that the `r` rows of `T = Wselᵗ·P` are linearly independent, the
reduced Gram matrix `C_red = Wselᵗ·P·Wsel` is positive definite and
`Tᵗ · C_red⁻¹ · T = P` — the exact-arithmetic content of the
eigendecomposition route of `uncompress_slice`. -/

theorem transpose_eq_of_hermitian {n : ℕ} {Q : Matrix (Fin n) (Fin n) ℝ}
    (h : Q.IsHermitian) : Qᵀ = Q := by
  rw [← conjTranspose_eq_transpose_of_trivial]
  exact h

theorem vecMul_eq_sum_smul_rows {r n : ℕ} (x : Fin r → ℝ)
    (A : Matrix (Fin r) (Fin n) ℝ) :
    x ᵥ* A = ∑ a, x a • A a := by
  funext j
  rw [Finset.sum_apply]
  simp [Matrix.vecMul, Matrix.dotProduct]

theorem dotProduct_self_pos {n : ℕ} {v : Fin n → ℝ} (hv : v ≠ 0) :
    0 < dotProduct v v := by
  have h0 : 0 ≤ dotProduct v v :=
    Finset.sum_nonneg fun i _ => mul_self_nonneg (v i)
  rcases h0.lt_or_eq with h | h
  · exact h
  · exact absurd (dotProduct_self_eq_zero.mp h.symm) hv

theorem psd_projection_identity {NS r : ℕ}
    (P : Matrix (Fin NS) (Fin NS) ℝ) (hP : P.PosSemidef)
    (Wsel : Matrix (Fin NS) (Fin r) ℝ)
    (hind : LinearIndependent ℝ (fun a : Fin r => (Wselᵀ * P) a))
    (hr : P.rank = r) :
    (Wselᵀ * P * Wsel).PosDef
    ∧ (Wselᵀ * P)ᵀ * (Wselᵀ * P * Wsel)⁻¹ * (Wselᵀ * P) = P := by
  have hSS : hP.sqrt * hP.sqrt = P := hP.sqrt_mul_self
  have hSh : hP.sqrtᵀ = hP.sqrt := transpose_eq_of_hermitian hP.posSemidef_sqrt.1
  set S := hP.sqrt with hSdef
  set M := S * Wsel with hMdef
  have hT : Wselᵀ * P = Mᵀ * S := by
    calc Wselᵀ * P = Wselᵀ * (S * S) := by rw [hSS]
      _ = Wselᵀ * S * S := by rw [Matrix.mul_assoc]
      _ = Wselᵀ * Sᵀ * S := by rw [hSh]
      _ = (S * Wsel)ᵀ * S := by rw [Matrix.transpose_mul]
  have hC : Wselᵀ * P * Wsel = Mᵀ * M := by
    calc Wselᵀ * P * Wsel = Mᵀ * S * Wsel := by rw [hT]
      _ = Mᵀ * (S * Wsel) := by rw [Matrix.mul_assoc]
  have hTt : (Wselᵀ * P)ᵀ = S * M := by
    rw [hT, Matrix.transpose_mul, Matrix.transpose_transpose, hSh]
  have hMinj : ∀ x, M *ᵥ x = 0 → x = 0 := by
    intro x hx
    have h1 : (Wselᵀ * P)ᵀ *ᵥ x = 0 := by
      rw [hTt, ← Matrix.mulVec_mulVec, hx, Matrix.mulVec_zero]
    rw [Matrix.mulVec_transpose] at h1
    rw [vecMul_eq_sum_smul_rows] at h1
    funext i
    exact Fintype.linearIndependent_iff.mp hind x h1 i
  have hherm : (Wselᵀ * P * Wsel).IsHermitian := by
    rw [hC]
    show (Mᵀ * M)ᴴ = Mᵀ * M
    rw [conjTranspose_eq_transpose_of_trivial, Matrix.transpose_mul,
      Matrix.transpose_transpose]
  have hpd : (Wselᵀ * P * Wsel).PosDef := by
    refine ⟨hherm, ?_⟩
    intro x hx
    have hstarx : star x = x := by
      funext i
      exact star_trivial _
    have hdot : star x ⬝ᵥ ((Wselᵀ * P * Wsel) *ᵥ x) = (M *ᵥ x) ⬝ᵥ (M *ᵥ x) := by
      rw [hstarx, hC, ← Matrix.mulVec_mulVec, Matrix.dotProduct_mulVec,
        Matrix.vecMul_transpose]
    rw [hdot]
    exact dotProduct_self_pos fun h => hx (hMinj x h)
  have hdet : IsUnit (Wselᵀ * P * Wsel).det :=
    isUnit_iff_ne_zero.mpr (ne_of_gt hpd.det_pos)
  have hdetMM : IsUnit (Mᵀ * M).det := by
    rw [← hC]
    exact hdet
  have hrankM : M.rank = r := by
    have h1 : (Mᵀ * M).rank = M.rank := rank_transpose_mul_self M
    have h2 : (Mᵀ * M).rank = Fintype.card (Fin r) :=
      rank_of_isUnit _ ((Matrix.isUnit_iff_isUnit_det _).mpr hdetMM)
    rw [Fintype.card_fin] at h2
    omega
  have hrankS : S.rank = r := by
    have h1 : (Sᵀ * S).rank = S.rank := rank_transpose_mul_self S
    rw [hSh, hSS] at h1
    omega
  have hle : LinearMap.range M.mulVecLin ≤ LinearMap.range S.mulVecLin := by
    rw [hMdef, Matrix.mulVecLin_mul]
    exact LinearMap.range_comp_le_range _ _
  have heq : LinearMap.range M.mulVecLin = LinearMap.range S.mulVecLin := by
    apply Submodule.eq_of_le_of_finrank_le hle
    show Module.finrank ℝ (LinearMap.range S.mulVecLin)
      ≤ Module.finrank ℝ (LinearMap.range M.mulVecLin)
    have hM' : Module.finrank ℝ (LinearMap.range M.mulVecLin) = r := hrankM
    have hS' : Module.finrank ℝ (LinearMap.range S.mulVecLin) = r := hrankS
    omega
  have hcols : ∀ j, ∃ y, M *ᵥ y = S *ᵥ Pi.single j 1 := by
    intro j
    have hmem : S *ᵥ Pi.single j 1 ∈ LinearMap.range S.mulVecLin :=
      ⟨Pi.single j 1, by rw [Matrix.mulVecLin_apply]⟩
    rw [← heq] at hmem
    obtain ⟨y, hy⟩ := hmem
    exact ⟨y, by rw [← Matrix.mulVecLin_apply]; exact hy⟩
  choose Kf hKf using hcols
  have hMK : M * (Matrix.of fun a j => Kf j a) = S := by
    ext i j
    have h1 := congrFun (hKf j) i
    rw [Matrix.mulVec_single] at h1
    simp only [Matrix.mulVec, Matrix.dotProduct] at h1
    rw [mul_one] at h1
    rw [Matrix.mul_apply]
    exact h1
  have hinner : (Mᵀ * M)⁻¹ * (Mᵀ * S) = Matrix.of fun a j => Kf j a := by
    conv_lhs => rw [← hMK]
    rw [← Matrix.mul_assoc Mᵀ M _, ← Matrix.mul_assoc,
      Matrix.nonsing_inv_mul _ hdetMM, Matrix.one_mul]
  refine ⟨hpd, ?_⟩
  calc (Wselᵀ * P)ᵀ * (Wselᵀ * P * Wsel)⁻¹ * (Wselᵀ * P)
      = S * M * ((Mᵀ * M)⁻¹ * (Mᵀ * S)) := by
        rw [hTt, hC, hT, Matrix.mul_assoc]
    _ = S * M * Matrix.of fun a j => Kf j a := by rw [hinner]
    _ = S * (M * Matrix.of fun a j => Kf j a) := by rw [Matrix.mul_assoc]
    _ = S * S := by rw [hMK]
    _ = P := hSS


theorem bindOk {α β : Type _} (x : α) (f : α → Except PyErr β) :
    (Except.ok x : Except PyErr α).bind f = f x := rfl

theorem uncompress_main_roundtrip {NS m : ℕ}
    (P : Matrix (Fin NS) (Fin NS) ℝ) (W : Matrix (Fin NS) (Fin m) ℝ)
    (hP : P.PosSemidef) (d : Fin m)
    (hrank : (Wᵀ * P).rank = P.rank)
    (hne : (get_IR (Wᵀ * P)).2.length ≠ 0) :
    uncompress_main (Wᵀ * P) W (get_IR (Wᵀ * P)).1 (get_IR (Wᵀ * P)).2 d = .ok P := by
  simp only [uncompress_main]
  set A := Wᵀ * P with hAdef
  set inds := (get_IR A).2 with hindsdef
  set gI : Fin inds.length → Fin m := (fun a => inds.getD (↑a) d) with hgIdef
  set CredT := (A * W).submatrix gI gI with hCredTdef
  set vals := (lowerSym_isHermitian CredT).eigenvalues with hvalsdef
  set Ut : Matrix (Fin inds.length) (Fin inds.length) ℝ :=
    ((lowerSym_isHermitian CredT).eigenvectorUnitary :
      Matrix (Fin inds.length) (Fin inds.length) ℝ) with hUtdef
  set Tmat := (Matrix.of fun a : Fin inds.length => (get_IR A).1.getD (↑a) 0)
    with hTmatdef
  -- basic facts
  have hr : inds.length = P.rank := by
    rw [hindsdef, get_IR_length_eq_rank, hAdef, hrank]
  have hrpos : 0 < inds.length := Nat.pos_of_ne_zero hne
  have hTlen : (get_IR A).1.length = inds.length := by
    rw [get_IR_T_eq]
    simp [hindsdef]
  have hrow : ∀ a : Fin inds.length, (get_IR A).1.getD (↑a : ℕ) 0 = A (gI a) := by
    intro a
    have ha1 : (↑a : ℕ) < (get_IR A).1.length := by rw [hTlen]; exact a.isLt
    rw [List.getD_eq_getElem _ _ ha1]
    have hmap := get_IR_T_eq A
    rw [List.getElem_of_eq hmap]
    rw [List.getElem_map]
    rw [hgIdef]
    simp only []
    rw [List.getD_eq_getElem _ _ a.isLt]
  have hTmatEq : Tmat = (W.submatrix id gI)ᵀ * P := by
    ext a j
    rw [hTmatdef]
    show ((get_IR A).1.getD (↑a) 0) j = ((W.submatrix id gI)ᵀ * P) a j
    rw [congrFun (hrow a) j, hAdef]
    simp [Matrix.mul_apply, Matrix.transpose_apply, Matrix.submatrix_apply]
  have hCredEq : CredT = (W.submatrix id gI)ᵀ * P * (W.submatrix id gI) := by
    ext a b
    rw [hCredTdef, hAdef]
    simp [Matrix.mul_apply, Matrix.submatrix_apply, Matrix.transpose_apply,
      Finset.sum_mul, Finset.mul_sum]
  have hind : LinearIndependent ℝ
      (fun a : Fin inds.length => ((W.submatrix id gI)ᵀ * P) a) := by
    have hrows : (fun a : Fin inds.length => ((W.submatrix id gI)ᵀ * P) a)
        = fun a => A (gI a) := by
      funext a
      rw [← hTmatEq]
      exact hrow a
    rw [hrows, linearIndependent_iff_card_eq_finrank_span]
    have hrangeEq : Set.range (fun a : Fin inds.length => A (gI a))
        = {x | x ∈ (get_IR A).1} := by
      ext y
      constructor
      · rintro ⟨a, rfl⟩
        rw [get_IR_T_eq]
        refine List.mem_map.mpr ⟨gI a, ?_, rfl⟩
        rw [hgIdef]
        simp only []
        rw [List.getD_eq_getElem _ _ a.isLt]
        exact List.getElem_mem _
      · intro hy
        rw [get_IR_T_eq] at hy
        obtain ⟨i, hi, rfl⟩ := List.mem_map.mp hy
        obtain ⟨k, hk, hik⟩ := List.mem_iff_getElem.mp hi
        refine ⟨⟨k, hk⟩, ?_⟩
        show A (gI ⟨k, hk⟩) = A i
        rw [hgIdef]
        simp only []
        rw [List.getD_eq_getElem _ _ hk, hik]
    rw [hrangeEq]
    rw [Fintype.card_fin]
    have h1 := get_IR_rankL A
    show inds.length = rankL (get_IR A).1
    omega
  obtain ⟨hpd, hident⟩ :=
    psd_projection_identity P hP (W.submatrix id gI) hind hr.symm
  have hpdT : CredT.PosDef := by rw [hCredEq]; exact hpd
  have hsymT : CredTᵀ = CredT := transpose_eq_of_hermitian hpdT.1
  have hlow : lowerSym CredT = CredT := lowerSym_eq_self_of_symm hsymT
  have hRC : Utᵀᵀ * Matrix.diagonal vals * Utᵀ = CredT := by
    rw [hUtdef, hvalsdef]
    exact (R_eq_lowerSym CredT).trans hlow
  rw [if_pos hRC]
  have hvpos : ∀ i, 0 < vals i := by
    intro i
    have hBpd : (lowerSym CredT).PosDef := by rw [hlow]; exact hpdT
    exact hBpd.eigenvalues_pos i
  rw [clampRoots_all_pos hrpos hvpos, bindOk]
  rw [if_pos (show ∀ i, ((fun i => FV.fin (Real.sqrt (vals i))⁻¹) i).IsFin
    from fun i => trivial)]
  have hstarUt : star Ut = Utᵀ := by
    rw [Matrix.star_eq_conjTranspose, conjTranspose_eq_transpose_of_trivial]
  have hUUt : Ut * Utᵀ = 1 := by
    have h := (Matrix.mem_unitaryGroup_iff).mp
      ((lowerSym_isHermitian CredT).eigenvectorUnitary).2
    rw [← hUtdef, hstarUt] at h
    exact h
  have hUtU : Utᵀ * Ut = 1 := by
    have h := (Matrix.mem_unitaryGroup_iff').mp
      ((lowerSym_isHermitian CredT).eigenvectorUnitary).2
    rw [← hUtdef, hstarUt] at h
    exact h
  have hspec : Ut * Matrix.diagonal vals * Utᵀ = CredT := by
    have h := hRC
    rwa [transpose_transpose] at h
  have hvne : ∀ i, vals i ≠ 0 := fun i => ne_of_gt (hvpos i)
  have hLmul : Matrix.diagonal vals * Matrix.diagonal (fun i => (vals i)⁻¹) = 1 := by
    rw [Matrix.diagonal_mul_diagonal]
    have hfun : (fun i => vals i * (vals i)⁻¹) = fun _ : Fin inds.length => (1 : ℝ) :=
      funext fun i => mul_inv_cancel₀ (hvne i)
    rw [hfun, Matrix.diagonal_one]
  have hCinv : CredT⁻¹ = Ut * Matrix.diagonal (fun i => (vals i)⁻¹) * Utᵀ := by
    apply Matrix.inv_eq_right_inv
    calc CredT * (Ut * Matrix.diagonal (fun i => (vals i)⁻¹) * Utᵀ)
        = Ut * Matrix.diagonal vals * Utᵀ *
            (Ut * Matrix.diagonal (fun i => (vals i)⁻¹) * Utᵀ) := by rw [hspec]
      _ = Ut * (Matrix.diagonal vals *
            ((Utᵀ * Ut) * (Matrix.diagonal (fun i => (vals i)⁻¹) * Utᵀ))) := by
          simp only [Matrix.mul_assoc]
      _ = Ut * (Matrix.diagonal vals *
            (Matrix.diagonal (fun i => (vals i)⁻¹) * Utᵀ)) := by
          rw [hUtU, Matrix.one_mul]
      _ = Ut * ((Matrix.diagonal vals * Matrix.diagonal (fun i => (vals i)⁻¹)) * Utᵀ) := by
          rw [Matrix.mul_assoc]
      _ = Ut * Utᵀ := by rw [hLmul, Matrix.one_mul]
      _ = 1 := hUUt
  have hD : (Matrix.diagonal fun i : Fin inds.length => (Real.sqrt (vals i))⁻¹) *
      (Matrix.diagonal fun i : Fin inds.length => (Real.sqrt (vals i))⁻¹)
      = Matrix.diagonal (fun i => (vals i)⁻¹) := by
    have hfun2 : (fun i : Fin inds.length => (Real.sqrt (vals i))⁻¹ * (Real.sqrt (vals i))⁻¹)
        = fun i => (vals i)⁻¹ := by
      funext i
      rw [← mul_inv, Real.mul_self_sqrt (le_of_lt (hvpos i))]
    rw [Matrix.diagonal_mul_diagonal, hfun2]
  have hkey : ((Matrix.diagonal fun i => ((fun i => FV.fin (Real.sqrt (vals i))⁻¹) i).toReal) *
        (Utᵀ * Tmat))ᵀ *
      ((Matrix.diagonal fun i => ((fun i => FV.fin (Real.sqrt (vals i))⁻¹) i).toReal) *
        (Utᵀ * Tmat)) = P := by
    show ((Matrix.diagonal fun i : Fin inds.length => (Real.sqrt (vals i))⁻¹) *
          (Utᵀ * Tmat))ᵀ *
        ((Matrix.diagonal fun i : Fin inds.length => (Real.sqrt (vals i))⁻¹) *
          (Utᵀ * Tmat)) = P
    calc ((Matrix.diagonal fun i : Fin inds.length => (Real.sqrt (vals i))⁻¹) *
          (Utᵀ * Tmat))ᵀ *
        ((Matrix.diagonal fun i : Fin inds.length => (Real.sqrt (vals i))⁻¹) *
          (Utᵀ * Tmat))
        = Tmatᵀ * Utᵀᵀ *
            (Matrix.diagonal fun i : Fin inds.length => (Real.sqrt (vals i))⁻¹)ᵀ *
            ((Matrix.diagonal fun i : Fin inds.length => (Real.sqrt (vals i))⁻¹) *
              (Utᵀ * Tmat)) := by
          rw [Matrix.transpose_mul, Matrix.transpose_mul]
      _ = Tmatᵀ * (Ut *
            ((Matrix.diagonal fun i : Fin inds.length => (Real.sqrt (vals i))⁻¹) *
              ((Matrix.diagonal fun i : Fin inds.length => (Real.sqrt (vals i))⁻¹) *
                (Utᵀ * Tmat)))) := by
          rw [transpose_transpose, Matrix.diagonal_transpose]
          simp only [Matrix.mul_assoc]
      _ = Tmatᵀ * (Ut * (Matrix.diagonal (fun i => (vals i)⁻¹) * (Utᵀ * Tmat))) := by
          rw [← Matrix.mul_assoc
            (Matrix.diagonal fun i : Fin inds.length => (Real.sqrt (vals i))⁻¹)
            (Matrix.diagonal fun i : Fin inds.length => (Real.sqrt (vals i))⁻¹)
            (Utᵀ * Tmat), hD]
      _ = Tmatᵀ * (CredT⁻¹ * Tmat) := by
          rw [hCinv]
          simp only [Matrix.mul_assoc]
      _ = P := by
          rw [hTmatEq, hCredEq, ← Matrix.mul_assoc]
          exact hident
  rw [hkey, hAdef, if_pos rfl]

/-! ### Claim C1: round-trip correctness of the slice decompressor -/

/-- C1 counterexample: `P = diag(0,1)` is symmetric PSD with
`rank P = 1 ≤ 2·0+1`, and the single key column `W = (1,0)ᵀ` has
`rank W = 1 ≥ rank P`, yet `Wᵀ·P = 0`: the compressed slice is the
zero matrix, `get_IR` retains no row, and `uncompress_slice` returns
the zero matrix, not `P`.  The claim's rank hypotheses do not imply
the round trip; the missing hypothesis is `rank (Wᵀ·P) = rank P`. -/
theorem C1_counterexample :
    (Matrix.of ![![(0 : ℝ), 0], ![0, 1]]).PosSemidef
    ∧ (Matrix.of ![![(0 : ℝ), 0], ![0, 1]]).rank ≤ 2 * 0 + 1
    ∧ (Matrix.of ![![(0 : ℝ), 0], ![0, 1]]).rank
        ≤ ((Matrix.of ![![(1 : ℝ)], ![0]]).submatrix id
            (Fin.castLE (le_refl 1))).rank
    ∧ uncompress_slice 0
        ((Matrix.of ![![(1 : ℝ)], ![0]])ᵀ * Matrix.of ![![(0 : ℝ), 0], ![0, 1]])
        (Matrix.of ![![(1 : ℝ)], ![0]]) (le_refl 1) = .ok 0
    ∧ (0 : Matrix (Fin 2) (Fin 2) ℝ) ≠ Matrix.of ![![(0 : ℝ), 0], ![0, 1]] := by
  have hfact : Matrix.of ![![(0 : ℝ), 0], ![0, 1]]
      = Matrix.of ![![(0 : ℝ)], ![1]] * (Matrix.of ![![(0 : ℝ)], ![1]])ᴴ := by
    ext i j
    fin_cases i <;> fin_cases j <;>
      simp [Matrix.mul_apply, Fin.sum_univ_one, Matrix.conjTranspose_apply,
        Matrix.transpose_apply, Matrix.vecHead, Matrix.vecTail]
  have hpsd : (Matrix.of ![![(0 : ℝ), 0], ![0, 1]]).PosSemidef := by
    rw [hfact]
    exact Matrix.posSemidef_self_mul_conjTranspose _
  have hr1 : (Matrix.of ![![(0 : ℝ), 0], ![0, 1]]).rank ≤ 1 := by
    rw [hfact]
    exact le_trans (Matrix.rank_mul_le_left _ _)
      (le_trans (Matrix.rank_le_card_width _) (le_of_eq (Fintype.card_fin 1)))
  have hWne : (Matrix.of ![![(1 : ℝ)], ![0]]).submatrix id
      (Fin.castLE (le_refl 1)) ≠ 0 := by
    intro h
    have h00 := congrFun (congrFun h 0) 0
    simp [Matrix.submatrix_apply] at h00
  have hWrank : 1 ≤ ((Matrix.of ![![(1 : ℝ)], ![0]]).submatrix id
      (Fin.castLE (le_refl 1))).rank :=
    Nat.one_le_iff_ne_zero.mpr fun h => hWne ((matrix_rank_eq_zero_iff _).1 h)
  have hWtP : (Matrix.of ![![(1 : ℝ)], ![0]])ᵀ * Matrix.of ![![(0 : ℝ), 0], ![0, 1]]
      = (0 : Matrix (Fin 1) (Fin 2) ℝ) := by
    ext i j
    fin_cases i
    fin_cases j <;>
      simp [Matrix.mul_apply, Fin.sum_univ_two, Matrix.transpose_apply,
        Matrix.vecHead, Matrix.vecTail]
  have hkey : uncompress_slice 0
      ((Matrix.of ![![(1 : ℝ)], ![0]])ᵀ * Matrix.of ![![(0 : ℝ), 0], ![0, 1]])
      (Matrix.of ![![(1 : ℝ)], ![0]]) (le_refl 1) = .ok 0 :=
    (congrArg (fun M : Matrix (Fin 1) (Fin 2) ℝ =>
        uncompress_slice 0 M (Matrix.of ![![(1 : ℝ)], ![0]]) (le_refl 1)) hWtP).trans
      (uncompress_slice_zero 0 (Matrix.of ![![(1 : ℝ)], ![0]]) (le_refl 1))
  have hne : (0 : Matrix (Fin 2) (Fin 2) ℝ) ≠ Matrix.of ![![(0 : ℝ), 0], ![0, 1]] := by
    intro h
    have h11 := congrFun (congrFun h 1) 1
    simp at h11
  exact ⟨hpsd, le_trans hr1 (by norm_num), le_trans hr1 hWrank, hkey, hne⟩

/-- C1 amended — round-trip correctness with the rank-preservation
hypothesis: for a symmetric PSD `P` with `rank P ≤ 2l+1` and a key
whose first `2l+1` columns `W` satisfy `rank W ≥ rank P`, and — the
hypothesis the original claim is missing — `rank (Wᵀ·P) = rank P`,
decompressing the compressed slice `Wᵀ·P` returns `P` exactly (the
model's exact-real counterpart of equality within floating-point
tolerance). -/
theorem C1_roundtrip_amended {NS nc : ℕ} (l : ℕ)
    (P : Matrix (Fin NS) (Fin NS) ℝ) (RK : Matrix (Fin NS) (Fin nc) ℝ)
    (hnc : 2 * l + 1 ≤ nc) (hP : P.PosSemidef)
    ( _hr1 : P.rank ≤ 2 * l + 1)
    ( _hr2 : P.rank ≤ (RK.submatrix id (Fin.castLE hnc)).rank)
    (hrank : ((RK.submatrix id (Fin.castLE hnc))ᵀ * P).rank = P.rank) :
    uncompress_slice l ((RK.submatrix id (Fin.castLE hnc))ᵀ * P) RK hnc = .ok P := by
  simp only [uncompress_slice]
  by_cases h0 : (get_IR ((RK.submatrix id (Fin.castLE hnc))ᵀ * P)).2.length = 0
  · rw [if_pos h0]
    have hA0 : (RK.submatrix id (Fin.castLE hnc))ᵀ * P = 0 :=
      (get_IR_inds_nil_iff _).1 h0
    have hPr : P.rank = 0 := by
      rw [← hrank, hA0]
      exact rank_zero
    have hP0 : P = 0 := (matrix_rank_eq_zero_iff P).1 hPr
    rw [hA0, if_pos rank_zero, hP0]
  · rw [if_neg h0]
    exact uncompress_main_roundtrip P (RK.submatrix id (Fin.castLE hnc)) hP
      ⟨0, Nat.succ_pos _⟩ hrank h0

/-- Witness for C1's amended theorem at `N·S = 1`, `l = 0`,
`P = [[1]]`, `RK = [[1]]`: the key slice is `[[1]]`, `Wᵀ·P = [[1]]`
has rank `1 = rank P`, and decompression returns `P` exactly. -/
theorem C1_roundtrip_amended_witness :
    uncompress_slice 0
      (((1 : Matrix (Fin 1) (Fin 1) ℝ).submatrix id (Fin.castLE (le_refl 1)))ᵀ
        * (1 : Matrix (Fin 1) (Fin 1) ℝ))
      (1 : Matrix (Fin 1) (Fin 1) ℝ) (le_refl 1) = .ok 1 := by
  have hrk : (1 : Matrix (Fin 1) (Fin 1) ℝ).rank = 1 := by
    rw [Matrix.rank_one, Fintype.card_fin]
  have hsub : (1 : Matrix (Fin 1) (Fin 1) ℝ).submatrix id (Fin.castLE (le_refl 1))
      = (1 : Matrix (Fin 1) (Fin 1) ℝ) := by
    ext i j
    simp [Matrix.submatrix_apply, Matrix.one_apply, eq_iff_true_of_subsingleton]
  have hW : ((1 : Matrix (Fin 1) (Fin 1) ℝ).submatrix id (Fin.castLE (le_refl 1)))ᵀ
      * (1 : Matrix (Fin 1) (Fin 1) ℝ) = (1 : Matrix (Fin 1) (Fin 1) ℝ) := by
    ext i j
    simp [Matrix.mul_apply, Matrix.submatrix_apply, Matrix.one_apply,
      Fin.sum_univ_one, eq_iff_true_of_subsingleton]
  exact C1_roundtrip_amended 0 1 1 (le_refl 1) Matrix.PosSemidef.one
    (le_of_eq hrk) (le_of_eq (congrArg Matrix.rank hsub).symm)
    (congrArg Matrix.rank hW)


end BOAD
